import Mathlib

/-!
A shallow embedding of `src/homework4.cpp`: a multi-threaded word-count
program.  Byte streams are modelled as `List Nat` (the C++ code manipulates
`char` values through `::ispunct`, `::tolower` and the whitespace skipping of
`operator>>`); classification functions follow the C locale on ASCII codes.
-/

namespace Homework4

/-- ASCII whitespace, as recognised by `std::isspace` in the C locale
(codes 9–13 and 32), which governs `operator>>` token extraction. -/
def isSpaceC (n : Nat) : Bool :=
  decide (n = 32) || decide (n = 9) || decide (n = 10) || decide (n = 11) ||
  decide (n = 12) || decide (n = 13)

/-- ASCII punctuation, as recognised by `::ispunct` in the C locale
(codes 33–47, 58–64, 91–96, 123–126). -/
def isPunctC (n : Nat) : Bool :=
  (decide (33 ≤ n) && decide (n ≤ 47)) || (decide (58 ≤ n) && decide (n ≤ 64)) ||
  (decide (91 ≤ n) && decide (n ≤ 96)) || (decide (123 ≤ n) && decide (n ≤ 126))

/-- ASCII uppercase letters (codes 65–90), as recognised by `::isupper`. -/
def isUpperC (n : Nat) : Bool := decide (65 ≤ n) && decide (n ≤ 90)

/-- `::tolower` in the C locale: shift an uppercase letter down by 32. -/
def toLowerC (n : Nat) : Nat := if isUpperC n then n + 32 else n

/-- One character step of `std::replace_if(line.begin(), line.end(), ::ispunct, ' ')`. -/
def punctToSpace (n : Nat) : Nat := if isPunctC n then 32 else n

/-- The per-character normalisation performed on each chunk read in
`processFile` (homework4.cpp lines 112–114): punctuation to space, then
lowercase. -/
def normChar (n : Nat) : Nat := toLowerC (punctToSpace n)

/-- Negation of `isSpaceC`: the characters kept by `operator>>`. -/
def notSpace (n : Nat) : Bool := !isSpaceC n

/-- Bytes of a Lean string, used to supply concrete inputs to the model. -/
def strBytes (s : String) : List Nat := s.toList.map Char.toNat

/-- Back from bytes to a string, for stating results about produced tokens. -/
def bytesToStr (l : List Nat) : String := String.mk (l.map Char.ofNat)

/-- Accumulator-style splitter: `splitAux p l acc` returns the maximal runs of
characters satisfying `p` in `acc.reverse ++ l`, where `acc` is the (reversed)
run in progress.  This is the semantics of repeatedly extracting with
`operator>>` (with `p = notSpace`) and of `std::stringstream` extraction on a
normalised chunk. -/
def splitAux (p : Nat → Bool) : List Nat → List Nat → List (List Nat)
  | [], acc => if acc.isEmpty then [] else [acc.reverse]
  | c :: cs, acc =>
    if p c then splitAux p cs (c :: acc)
    else if acc.isEmpty then splitAux p cs []
    else acc.reverse :: splitAux p cs []

/-- The maximal runs of characters satisfying `p` in `l`. -/
def splitWith (p : Nat → Bool) (l : List Nat) : List (List Nat) :=
  splitAux p l []

/-- The tokens produced from one string by homework4.cpp lines 112–119:
replace punctuation by spaces, lowercase, then extract whitespace-delimited
words with a `std::stringstream`. -/
def tokenizeBytes (l : List Nat) : List (List Nat) :=
  splitWith notSpace (l.map normChar)

/-- String-level view of `tokenizeBytes`. -/
def tokenize (s : String) : List String :=
  (tokenizeBytes (strBytes s)).map bytesToStr

/-- One `result[line] = true;` step of `loadDictionary` on the
`std::unordered_map<std::string, bool>`: inserting an existing key rewrites
its value to `true` (a no-op, every stored value is `true`); a new key is
added with value `true`. -/
def dictInsert (d : List (List Nat × Bool)) (k : List Nat) :
    List (List Nat × Bool) :=
  if d.any (fun a => decide (a.1 = k)) then d else d ++ [(k, true)]

/-- `loadDictionary` (homework4.cpp lines 39–54): read whitespace-delimited
tokens with `in >> line` and store each under value `true`. -/
def loadDictionary (src : List Nat) : List (List Nat × Bool) :=
  (splitWith notSpace src).foldl dictInsert []

/-- The keys currently stored in the dictionary. -/
def dictKeys (d : List (List Nat × Bool)) : List (List Nat) := d.map Prod.fst

/-- `checkWord` (homework4.cpp lines 66–80): linear scan over the whole
dictionary; `isEng` starts `false` and is set to `true` on a pair whose key
equals the word and whose value is `true`. -/
def checkWord (d : List (List Nat × Bool)) (word : List Nat) : Bool :=
  d.foldl (fun isEng a => if decide (a.1 = word) && a.2 then true else isEng)
    false

/-- `std::getline` on a byte stream: the first line (up to, excluding, a
newline) and the remainder after that newline. -/
def lineSplit (l : List Nat) : List Nat × List Nat :=
  (l.takeWhile (fun x => !(x == 10)), (l.dropWhile (fun x => !(x == 10))).drop 1)

theorem length_dropWhile_le (p : Nat → Bool) (l : List Nat) :
    (l.dropWhile p).length ≤ l.length := by
  induction l with
  | nil => simp
  | cons c cs ih =>
    cases h : p c with
    | true =>
      simp only [List.dropWhile_cons, h, if_true, List.length_cons]
      omega
    | false => simp [List.dropWhile_cons, h]

theorem lineSplit_snd_length_lt (c : Nat) (cs : List Nat) :
    (lineSplit (c :: cs)).2.length < (c :: cs).length := by
  have h := length_dropWhile_le (fun x => !(x == 10)) (c :: cs)
  simp only [lineSplit, List.length_drop, List.length_cons] at *
  omega

/-- The header-discarding loop of `processFile` (homework4.cpp lines 106–107),
on fuel (any fuel of at least the stream length gives the loop's behaviour;
each `getline` consumes at least one character): `std::getline` until the
line is empty or equal to `"\r"`; the value is the stream left for the
payload loop.  When the stream ends first, `getline` fails, the stream enters
a fail state, and every later extraction fails: this is modelled by the empty
remaining stream. -/
def headerGo : Nat → List Nat → List Nat
  | _, [] => []
  | 0, _ :: _ => []
  | fuel + 1, c :: cs =>
    if (lineSplit (c :: cs)).1 = [] ∨ (lineSplit (c :: cs)).1 = [13] then
      (lineSplit (c :: cs)).2
    else headerGo fuel (lineSplit (c :: cs)).2

/-- The header-discarding loop of `processFile`, with enough fuel for the
whole stream. -/
def headerLoop (l : List Nat) : List Nat := headerGo l.length l

/-- The decomposition of a stream into `std::getline` lines, on fuel,
mirroring the recursion of `headerGo` (used to state facts about
boundary-free streams). -/
def linesGo : Nat → List Nat → List (List Nat)
  | _, [] => []
  | 0, _ :: _ => []
  | fuel + 1, c :: cs => (lineSplit (c :: cs)).1 :: linesGo fuel (lineSplit (c :: cs)).2

/-- The `std::getline` lines of a stream. -/
def splitLines (l : List Nat) : List (List Nat) := linesGo l.length l

theorem headerGo_fuel (f₁ f₂ : Nat) (l : List Nat) (h₁ : l.length ≤ f₁)
    (h₂ : l.length ≤ f₂) : headerGo f₁ l = headerGo f₂ l := by
  induction f₁ generalizing f₂ l with
  | zero =>
    cases l with
    | nil => cases f₂ <;> rfl
    | cons c cs => simp at h₁
  | succ f ih =>
    cases l with
    | nil => cases f₂ <;> rfl
    | cons c cs =>
      cases f₂ with
      | zero => simp at h₂
      | succ f' =>
        simp only [headerGo]
        split
        · rfl
        · exact ih _ _ (by have := lineSplit_snd_length_lt c cs; simp at *; omega)
            (by have := lineSplit_snd_length_lt c cs; simp at *; omega)

theorem headerLoop_nil : headerLoop [] = [] := rfl

theorem headerLoop_cons (c : Nat) (cs : List Nat) :
    headerLoop (c :: cs) =
      if (lineSplit (c :: cs)).1 = [] ∨ (lineSplit (c :: cs)).1 = [13] then
        (lineSplit (c :: cs)).2
      else headerLoop (lineSplit (c :: cs)).2 := by
  show headerGo (cs.length + 1) (c :: cs) = _
  simp only [headerGo]
  split
  · rfl
  · exact headerGo_fuel _ _ _ (by have := lineSplit_snd_length_lt c cs; simp at *; omega)
      le_rfl

theorem linesGo_fuel (f₁ f₂ : Nat) (l : List Nat) (h₁ : l.length ≤ f₁)
    (h₂ : l.length ≤ f₂) : linesGo f₁ l = linesGo f₂ l := by
  induction f₁ generalizing f₂ l with
  | zero =>
    cases l with
    | nil => cases f₂ <;> rfl
    | cons c cs => simp at h₁
  | succ f ih =>
    cases l with
    | nil => cases f₂ <;> rfl
    | cons c cs =>
      cases f₂ with
      | zero => simp at h₂
      | succ f' =>
        simp only [linesGo, List.cons.injEq, true_and]
        exact ih _ _ (by have := lineSplit_snd_length_lt c cs; simp at *; omega)
          (by have := lineSplit_snd_length_lt c cs; simp at *; omega)

theorem splitLines_cons (c : Nat) (cs : List Nat) :
    splitLines (c :: cs) =
      (lineSplit (c :: cs)).1 :: splitLines (lineSplit (c :: cs)).2 := by
  show linesGo (cs.length + 1) (c :: cs) = _
  simp only [linesGo, List.cons.injEq, true_and]
  exact linesGo_fuel _ _ _ (by have := lineSplit_snd_length_lt c cs; simp at *; omega)
    le_rfl

/-- The tokens produced in order by the payload loop of `processFile`
(homework4.cpp lines 110–129): `is >> line` extracts whitespace-delimited
chunks, each chunk is normalised and re-split by a `std::stringstream`. -/
def processTokens (body : List Nat) : List (List Nat) :=
  ((splitWith notSpace body).map (fun ch => splitWith notSpace (ch.map normChar))).flatten

/-- The counting loop over the produced tokens (homework4.cpp lines 119–129):
the first component is `wordCount` (incremented on every token), the second is
`englishWords` (incremented when `checkWord` accepts the token). -/
def accumulate (d : List (List Nat × Bool)) (toks : List (List Nat))
    (s : Nat × Nat) : Nat × Nat :=
  toks.foldl (fun s w => (s.1 + 1, if checkWord d w then s.2 + 1 else s.2)) s

/-- The result string built at homework4.cpp lines 132–133. -/
def mkResult (file : String) (wordCount englishWords : Nat) : String :=
  file ++ ": words=" ++ toString wordCount ++ ", English words=" ++
    toString englishWords

/-- `processFile` (homework4.cpp lines 96–136), with the global `dictionary`
passed explicitly: strip the header, tokenize and count the payload, format
the result string. -/
def processFile (d : List (List Nat × Bool)) (stream : List Nat)
    (file : String) : String :=
  let counts := accumulate d (processTokens (headerLoop stream)) (0, 0)
  mkResult file counts.1 counts.2

/-- Outcome of opening the `boost::asio::ip::tcp::iostream` and sending the
GET request in `getStats`: either the response bytes, or a connection failure
(unreachable host, refused connection, premature termination). -/
inductive FetchResult where
  | success : List Nat → FetchResult
  | failure : FetchResult
deriving DecidableEq

/-- The stream handed to `processFile`.  A failed `tcp::iostream` is in a fail
state, so `getline` and `operator>>` fail immediately: the failure case
behaves exactly like an exhausted stream. -/
def fetchStream : FetchResult → List Nat
  | .success content => content
  | .failure => []

/-- `getStats` (homework4.cpp lines 153–173), with the network interaction
abstracted into a `FetchResult`: the function never throws and never inspects
the stream state; it always hands the stream to `processFile`. -/
def getStats (d : List (List Nat × Bool)) (fr : FetchResult)
    (file : String) : String :=
  processFile d (fetchStream fr) file

/-- `main` (homework4.cpp lines 181–207): one task per file computing
`getStats`, results joined in input order, and return value `0` on every
path. -/
def mainModel (d : List (List Nat × Bool)) (fetch : String → FetchResult)
    (files : List String) : List String × Nat :=
  (files.map (fun f => getStats d (fetch f) f), 0)

/-- One task completion: thread `j` writes `task j` into slot `j` of the
result vector (`stats[i] = getStats(argv[i])`); no other slot changes. -/
def writeSlot (task : Nat → String) (st : Nat → Option String) (j : Nat) :
    Nat → Option String :=
  fun k => if k = j then some (task j) else st k

/-- The result vector after the threads complete in the order given by
`order`, starting from the unpopulated vector.  `main` joins every thread
before reading, so any interleaving is some such completion order. -/
def runSched (task : Nat → String) (order : List Nat) : Nat → Option String :=
  order.foldl (writeSlot task) (fun _ => none)

/-- The per-thread work of `main`: slot `i`'s thread runs `getStats` on the
identifier at input position `i`. -/
def taskFor (d : List (List Nat × Bool)) (fetch : String → FetchResult)
    (files : List String) : Nat → String :=
  fun i => getStats d (fetch (files.getD i "")) (files.getD i "")

/-- Spec-side membership (section 4.1 of the spec): direct hash-set
membership of a word in the set of tokens loaded from the reference file. -/
def specContains (src : List Nat) (w : List Nat) : Bool :=
  decide (w ∈ splitWith notSpace src)

theorem checkWord_eq_any (d : List (List Nat × Bool)) (w : List Nat) :
    checkWord d w = d.any (fun a => decide (a.1 = w) && a.2) := by
  suffices h : ∀ b, d.foldl
      (fun isEng a => if decide (a.1 = w) && a.2 then true else isEng) b =
      (b || d.any (fun a => decide (a.1 = w) && a.2)) by
    simpa [checkWord] using h false
  induction d with
  | nil => simp
  | cons a d ih =>
    intro b
    simp only [List.foldl_cons, List.any_cons, ih]
    cases h : decide (a.1 = w) && a.2 <;> simp [h]

theorem mem_dictKeys_dictInsert (d : List (List Nat × Bool)) (k w : List Nat) :
    w ∈ dictKeys (dictInsert d k) ↔ w ∈ dictKeys d ∨ w = k := by
  unfold dictInsert
  split
  · rename_i h
    simp only [List.any_eq_true, decide_eq_true_eq] at h
    obtain ⟨a, ha, hak⟩ := h
    constructor
    · exact Or.inl
    · rintro (hw | rfl)
      · exact hw
      · exact hak ▸ List.mem_map_of_mem Prod.fst ha
  · simp [dictKeys]

theorem allTrue_foldl_dictInsert (tokens : List (List Nat))
    (d : List (List Nat × Bool)) (hd : ∀ a ∈ d, a.2 = true) :
    ∀ a ∈ tokens.foldl dictInsert d, a.2 = true := by
  induction tokens generalizing d with
  | nil => exact hd
  | cons t ts ih =>
    refine ih (dictInsert d t) ?_
    intro a ha
    unfold dictInsert at ha
    split at ha
    · exact hd a ha
    · rcases List.mem_append.mp ha with h | h
      · exact hd a h
      · simp at h; simp [h]

theorem mem_dictKeys_foldl_dictInsert (tokens : List (List Nat))
    (d : List (List Nat × Bool)) (w : List Nat) :
    w ∈ dictKeys (tokens.foldl dictInsert d) ↔ w ∈ dictKeys d ∨ w ∈ tokens := by
  induction tokens generalizing d with
  | nil => simp
  | cons t ts ih =>
    simp only [List.foldl_cons, ih, mem_dictKeys_dictInsert, List.mem_cons]
    tauto

theorem mem_dictKeys_loadDictionary (src : List Nat) (w : List Nat) :
    w ∈ dictKeys (loadDictionary src) ↔ w ∈ splitWith notSpace src := by
  unfold loadDictionary
  rw [mem_dictKeys_foldl_dictInsert]
  simp [dictKeys]

theorem checkWord_true_iff (d : List (List Nat × Bool)) (w : List Nat)
    (hd : ∀ a ∈ d, a.2 = true) :
    (checkWord d w = true ↔ w ∈ dictKeys d) := by
  rw [checkWord_eq_any]
  simp only [List.any_eq_true, Bool.and_eq_true, decide_eq_true_eq]
  constructor
  · rintro ⟨a, ha, rfl, -⟩
    exact List.mem_map_of_mem Prod.fst ha
  · intro hw
    obtain ⟨a, ha, rfl⟩ := List.mem_map.mp hw
    exact ⟨a, ha, rfl, hd a ha⟩

/-- C4: the linear scan `checkWord` over the dictionary built by
`loadDictionary` returns exactly the same boolean as direct set membership of
the word among the tokens loaded from the reference file, so replacing the
scan by a hash lookup changes no observable behaviour. -/
theorem checkWord_eq_hashSet_membership (src : List Nat) (w : List Nat) :
    checkWord (loadDictionary src) w = specContains src w := by
  have h := checkWord_true_iff (loadDictionary src) w
    (allTrue_foldl_dictInsert _ [] (by simp))
  rw [mem_dictKeys_loadDictionary] at h
  unfold specContains
  cases hc : checkWord (loadDictionary src) w
  · simp only [hc] at h
    simp [(Bool.false_eq_true ▸ h : _)]
    intro hmem
    exact absurd (h.mpr hmem) (by simp)
  · exact (decide_eq_true (h.mp hc)).symm

/-- Characters that survive both the `operator>>` whitespace splitting and
the punctuation replacement: neither whitespace nor punctuation. -/
def wordChar (n : Nat) : Bool := !isSpaceC n && !isPunctC n

theorem space_iff (n : Nat) : isSpaceC n = true ↔
    n = 32 ∨ n = 9 ∨ n = 10 ∨ n = 11 ∨ n = 12 ∨ n = 13 := by
  simp [isSpaceC]; tauto

theorem punct_iff (n : Nat) : isPunctC n = true ↔
    (33 ≤ n ∧ n ≤ 47) ∨ (58 ≤ n ∧ n ≤ 64) ∨ (91 ≤ n ∧ n ≤ 96) ∨
    (123 ≤ n ∧ n ≤ 126) := by
  simp [isPunctC]; tauto

theorem upper_iff (n : Nat) : isUpperC n = true ↔ 65 ≤ n ∧ n ≤ 90 := by
  simp [isUpperC]

theorem normChar_of_punct (n : Nat) (hp : isPunctC n = true) :
    normChar n = 32 := by
  unfold normChar punctToSpace toLowerC
  rw [hp]
  simp [isUpperC]

theorem normChar_of_upper (n : Nat) (hp : isPunctC n = false)
    (hu : isUpperC n = true) : normChar n = n + 32 := by
  unfold normChar punctToSpace toLowerC
  simp [hp, hu]

theorem normChar_of_other (n : Nat) (hp : isPunctC n = false)
    (hu : isUpperC n = false) : normChar n = n := by
  unfold normChar punctToSpace toLowerC
  simp [hp, hu]

theorem isSpaceC_normChar (n : Nat) :
    isSpaceC (normChar n) = (isSpaceC n || isPunctC n) := by
  cases hp : isPunctC n with
  | true => rw [normChar_of_punct n hp, Bool.or_true]; rfl
  | false =>
    rw [Bool.or_false]
    cases hu : isUpperC n with
    | true =>
      rw [normChar_of_upper n hp hu]
      have hb := (upper_iff n).mp hu
      have l : isSpaceC (n + 32) = false := by
        simp only [Bool.eq_false_iff, Ne, space_iff]; omega
      have r : isSpaceC n = false := by
        simp only [Bool.eq_false_iff, Ne, space_iff]; omega
      rw [l, r]
    | false => rw [normChar_of_other n hp hu]

theorem isPunctC_normChar (n : Nat) : isPunctC (normChar n) = false := by
  cases hp : isPunctC n with
  | true => rw [normChar_of_punct n hp]; rfl
  | false =>
    cases hu : isUpperC n with
    | true =>
      rw [normChar_of_upper n hp hu]
      have hb := (upper_iff n).mp hu
      simp only [Bool.eq_false_iff, Ne, punct_iff]; omega
    | false => rw [normChar_of_other n hp hu]; exact hp

theorem isUpperC_normChar (n : Nat) : isUpperC (normChar n) = false := by
  cases hp : isPunctC n with
  | true => rw [normChar_of_punct n hp]; rfl
  | false =>
    cases hu : isUpperC n with
    | true =>
      rw [normChar_of_upper n hp hu]
      have hb := (upper_iff n).mp hu
      simp only [Bool.eq_false_iff, Ne, upper_iff]; omega
    | false => rw [normChar_of_other n hp hu]; exact hu

theorem notSpace_normChar (n : Nat) : notSpace (normChar n) = wordChar n := by
  unfold notSpace wordChar
  rw [isSpaceC_normChar, Bool.not_or]

theorem splitAux_mem (p : Nat → Bool) (l : List Nat) :
    ∀ acc t, (∀ c ∈ acc, p c = true) → t ∈ splitAux p l acc →
      t ≠ [] ∧ ∀ c ∈ t, p c = true := by
  induction l with
  | nil =>
    intro acc t hacc ht
    unfold splitAux at ht
    split at ht
    · simp at ht
    · rename_i hne
      simp only [List.mem_singleton] at ht
      subst ht
      refine ⟨by simpa [List.isEmpty_iff] using hne, ?_⟩
      intro c hc
      exact hacc c (List.mem_reverse.mp hc)
  | cons c cs ih =>
    intro acc t hacc ht
    unfold splitAux at ht
    split at ht
    · rename_i hpc
      refine ih (c :: acc) t ?_ ht
      intro x hx
      rcases List.mem_cons.mp hx with rfl | hx
      · exact hpc
      · exact hacc x hx
    · split at ht
      · exact ih [] t (by simp) ht
      · rename_i hpc hne
        rcases List.mem_cons.mp ht with rfl | ht
        · refine ⟨by simpa [List.isEmpty_iff] using hne, ?_⟩
          intro x hx
          exact hacc x (List.mem_reverse.mp hx)
        · exact ih [] t (by simp) ht

theorem splitAux_sub (p : Nat → Bool) (l : List Nat) :
    ∀ acc t, t ∈ splitAux p l acc → ∀ c ∈ t, c ∈ l ∨ c ∈ acc := by
  induction l with
  | nil =>
    intro acc t ht c hc
    unfold splitAux at ht
    split at ht
    · simp at ht
    · simp only [List.mem_singleton] at ht
      subst ht
      exact Or.inr (List.mem_reverse.mp hc)
  | cons a cs ih =>
    intro acc t ht c hc
    unfold splitAux at ht
    split at ht
    · rcases ih (a :: acc) t ht c hc with h | h
      · exact Or.inl (List.mem_cons_of_mem a h)
      · rcases List.mem_cons.mp h with rfl | h
        · exact Or.inl (by simp)
        · exact Or.inr h
    · split at ht
      · rcases ih [] t ht c hc with h | h
        · exact Or.inl (List.mem_cons_of_mem a h)
        · simp at h
      · rcases List.mem_cons.mp ht with rfl | ht
        · exact Or.inr (List.mem_reverse.mp hc)
        · rcases ih [] t ht c hc with h | h
          · exact Or.inl (List.mem_cons_of_mem a h)
          · simp at h

theorem tokenizeBytes_wellformed (l : List Nat) (t : List Nat)
    (ht : t ∈ tokenizeBytes l) :
    t ≠ [] ∧ ∀ c ∈ t, isSpaceC c = false ∧ isPunctC c = false ∧
      isUpperC c = false := by
  obtain ⟨hne, hp⟩ := splitAux_mem notSpace (l.map normChar) [] t (by simp) ht
  refine ⟨hne, ?_⟩
  intro c hc
  have hsrc := splitAux_sub notSpace (l.map normChar) [] t ht c hc
  simp only [List.mem_map, List.not_mem_nil, or_false] at hsrc
  obtain ⟨a, -, rfl⟩ := hsrc
  have hs : isSpaceC (normChar a) = false := by
    have h2 := hp _ hc
    simpa [notSpace] using h2
  exact ⟨hs, isPunctC_normChar a, isUpperC_normChar a⟩

/-- C5: tokenization replaces every punctuation character with a space,
lowercases all alphabetic characters, and splits on runs of whitespace
discarding empty fragments, preserving left-to-right order: the line
`"The Quick Brown Fox jumps."` yields exactly
`["the","quick","brown","fox","jumps"]`, empty input yields the empty
sequence, and every produced token is a nonempty fragment free of
whitespace, punctuation and uppercase letters. -/
theorem tokenize_normalizes_and_splits :
    tokenize "The Quick Brown Fox jumps." =
      ["the", "quick", "brown", "fox", "jumps"] ∧
    tokenize "" = [] ∧
    ∀ l t, t ∈ tokenizeBytes l →
      t ≠ [] ∧ ∀ c ∈ t, isSpaceC c = false ∧ isPunctC c = false ∧
        isUpperC c = false := by
  refine ⟨by decide, by decide, ?_⟩
  intro l t ht
  exact tokenizeBytes_wellformed l t ht

theorem tokenize_normalizes_and_splits_witness :
    strBytes "don" ≠ [] :=
  (tokenize_normalizes_and_splits.2.2 (strBytes "Don't") (strBytes "don")
    (by decide)).1

/-- C9: `loadDictionary` stores each whitespace-delimited token of the source
verbatim (its key set is exactly the token set, with no lowercasing or other
normalisation), while every payload token produced by `processFile` is free
of uppercase letters, so a reference-list entry containing an uppercase
letter is never equal to any pipeline token and can never be recognised. -/
theorem dictionary_verbatim_uppercase_unreachable (src w body t : List Nat) :
    (w ∈ dictKeys (loadDictionary src) ↔ w ∈ splitWith notSpace src) ∧
    (w.any isUpperC = true → t ∈ processTokens body → t ≠ w) := by
  refine ⟨mem_dictKeys_loadDictionary src w, ?_⟩
  intro hup ht
  obtain ⟨inner, hinner, htin⟩ := List.mem_flatten.mp ht
  obtain ⟨ch, -, rfl⟩ := List.mem_map.mp hinner
  intro heq
  obtain ⟨c, hcw, hcu⟩ := List.any_eq_true.mp hup
  rw [← heq] at hcw
  have := (tokenizeBytes_wellformed ch t htin).2 c hcw
  simp [this.2.2] at hcu

theorem dictionary_verbatim_uppercase_unreachable_witness :
    strBytes "hello" ≠ strBytes "Hello" :=
  (dictionary_verbatim_uppercase_unreachable (strBytes "Hello")
    (strBytes "Hello") (strBytes "hello") (strBytes "hello")).2
    (by decide) (by decide)

theorem accumulate_eq (d : List (List Nat × Bool)) (toks : List (List Nat)) :
    ∀ a b, accumulate d toks (a, b) =
      (a + toks.length, b + (toks.filter (fun w => checkWord d w)).length) := by
  unfold accumulate
  induction toks with
  | nil => intro a b; simp
  | cons t ts ih =>
    intro a b
    rw [List.foldl_cons]
    by_cases h : checkWord d t = true
    · rw [if_pos h, ih]
      simp [List.filter_cons, h, Prod.ext_iff]
      omega
    · rw [if_neg h, ih]
      simp [List.filter_cons, h, Prod.ext_iff]
      omega

/-- C6: the accumulation step keeps, at every intermediate point (after any
prefix `T.take n` of the token sequence), the recognized-word count at most
the total word count, and the total word count equal to the number of tokens
consumed so far. -/
theorem accumulate_counts_invariant (d : List (List Nat × Bool))
    (T : List (List Nat)) (n : Nat) :
    (accumulate d (T.take n) (0, 0)).2 ≤ (accumulate d (T.take n) (0, 0)).1 ∧
    (accumulate d (T.take n) (0, 0)).1 = (T.take n).length := by
  rw [accumulate_eq]
  exact ⟨by simpa using List.length_filter_le (fun w => checkWord d w) (T.take n),
    by simp⟩

theorem processFile_headerLoop_nil (d : List (List Nat × Bool))
    (s : List Nat) (file : String) (h : headerLoop s = []) :
    processFile d s file = mkResult file 0 0 := by
  unfold processFile
  rw [h]
  rfl

/-- C7: for every input whose payload is empty after the envelope boundary
(`headerLoop` leaves an empty stream), the task completes with the normal
result string carrying total word count 0 and recognized word count 0 — no
failure occurs. -/
theorem empty_payload_zero_counts (d : List (List Nat × Bool)) (s : List Nat)
    (file : String) (h : headerLoop s = []) :
    processFile d s file = mkResult file 0 0 :=
  processFile_headerLoop_nil d s file h

theorem empty_payload_zero_counts_witness :
    processFile [] (strBytes "HTTP/1.1 200 OK\r\n\r\n") "t.txt" =
      mkResult "t.txt" 0 0 :=
  empty_payload_zero_counts [] (strBytes "HTTP/1.1 200 OK\r\n\r\n") "t.txt"
    (by decide)

theorem headerLoop_nil_of_no_boundary_fuel :
    ∀ (n : Nat) (s : List Nat), s.length ≤ n →
      (∀ ln ∈ splitLines s, ln ≠ [] ∧ ln ≠ [13]) → headerLoop s = [] := by
  intro n
  induction n with
  | zero =>
    intro s hs _
    cases s with
    | nil => rfl
    | cons c cs => simp at hs
  | succ n ih =>
    intro s hs h
    cases s with
    | nil => rfl
    | cons c cs =>
      rw [headerLoop_cons]
      have hline := h (lineSplit (c :: cs)).1
        (by rw [splitLines_cons]; exact List.mem_cons_self _ _)
      rw [if_neg (by tauto)]
      refine ih (lineSplit (c :: cs)).2 ?_ ?_
      · have := lineSplit_snd_length_lt c cs
        simp only [List.length_cons] at *
        omega
      · intro ln hln
        exact h ln (by rw [splitLines_cons]; exact List.mem_cons_of_mem _ hln)

/-- C2 counterexample: on the boundary-free stream `"hello world"` the code
reports zero words (the whole stream is consumed by the header loop), even
though treating the remaining stream as payload would count two words — the
claim that the remaining stream is tokenized and counted is false. -/
theorem no_boundary_stream_not_treated_as_payload :
    processFile [] (strBytes "hello world") "f" = mkResult "f" 0 0 ∧
    (processTokens (strBytes "hello world")).length = 2 :=
  ⟨by decide, by decide⟩

/-- C2 (amended): for every input stream in which the header/body boundary
never occurs, the envelope parser terminates without blocking (the header
loop stops at end of stream), but the entire remaining stream is consumed
and discarded as header, so the payload is empty and the task reports zero
words without failing. -/
theorem no_boundary_terminates_all_header (d : List (List Nat × Bool))
    (s : List Nat) (file : String)
    (h : ∀ ln ∈ splitLines s, ln ≠ [] ∧ ln ≠ [13]) :
    headerLoop s = [] ∧ processFile d s file = mkResult file 0 0 := by
  have h0 := headerLoop_nil_of_no_boundary_fuel s.length s le_rfl h
  exact ⟨h0, processFile_headerLoop_nil d s file h0⟩

theorem no_boundary_terminates_all_header_witness :
    processFile [] (strBytes "HTTP/1.1 200 OK\nX: y") "f.txt" =
      mkResult "f.txt" 0 0 :=
  (no_boundary_terminates_all_header [] (strBytes "HTTP/1.1 200 OK\nX: y")
    "f.txt" (by decide)).2

/-- C3 counterexample: a task whose fetch fails does NOT produce a failure
description — `getStats` hands the dead stream to `processFile`, which
produces the ordinary statistics string with zero counts, indistinguishable
from a successful fetch of an empty response. -/
theorem failed_fetch_zero_stats_not_failure_desc :
    getStats (loadDictionary (strBytes "the")) FetchResult.failure "cpp.txt" =
      mkResult "cpp.txt" 0 0 ∧
    getStats (loadDictionary (strBytes "the")) FetchResult.failure "cpp.txt" =
      getStats (loadDictionary (strBytes "the")) (FetchResult.success [])
        "cpp.txt" :=
  ⟨by decide, by decide⟩

theorem getD_map_str (g : String → String) (files : List String) :
    ∀ i, i < files.length → (files.map g).getD i "" = g (files.getD i "") := by
  induction files with
  | nil => intro i hi; simp at hi
  | cons f fs ih =>
    intro i hi
    cases i with
    | zero => rfl
    | succ i => exact ih i (by simpa using hi)

/-- C3 (amended): a task whose fetch fails produces the normal statistics
string with total 0 and recognized 0 (no failure description), and every
other task in the same batch still completes normally with its own result
computed independently from its own fetch. -/
theorem failed_fetch_zero_counts_batch_isolated (d : List (List Nat × Bool))
    (fetch : String → FetchResult) (files : List String) (i : Nat)
    (hi : i < files.length)
    (hf : fetch (files.getD i "") = FetchResult.failure) :
    (mainModel d fetch files).1.getD i "" = mkResult (files.getD i "") 0 0 ∧
    ∀ j, j < files.length →
      (mainModel d fetch files).1.getD j "" =
        getStats d (fetch (files.getD j "")) (files.getD j "") := by
  constructor
  · show (files.map (fun f => getStats d (fetch f) f)).getD i "" = _
    rw [getD_map_str (fun f => getStats d (fetch f) f) files i hi, hf]
    exact processFile_headerLoop_nil d [] (files.getD i "") rfl
  · intro j hj
    exact getD_map_str (fun f => getStats d (fetch f) f) files j hj

theorem failed_fetch_zero_counts_batch_isolated_witness :
    (mainModel (loadDictionary (strBytes "the quick fox"))
        (fun f => if f = "a.txt" then FetchResult.failure
          else FetchResult.success (strBytes "\r\nhello the fox"))
        ["a.txt", "b.txt"]).1.getD 0 "" = mkResult "a.txt" 0 0 :=
  (failed_fetch_zero_counts_batch_isolated
    (loadDictionary (strBytes "the quick fox"))
    (fun f => if f = "a.txt" then FetchResult.failure
      else FetchResult.success (strBytes "\r\nhello the fox"))
    ["a.txt", "b.txt"] 0 (by decide) (by decide)).1

/-- C8 counterexample: a batch of one identifier whose only fetch fails (so
every task in the batch failed) still makes `main` return exit code 0, the
success code — the exit code does not indicate whether all tasks failed. -/
theorem all_failed_exit_code_zero :
    (mainModel [] (fun _ => FetchResult.failure) ["cpp.txt"]).2 = 0 ∧
    ∀ f ∈ ["cpp.txt"], (fun _ : String => FetchResult.failure) f =
      FetchResult.failure :=
  ⟨rfl, by decide⟩

/-- C8 (amended): `main` returns 0 on every path, so the process exit code
is always the success code, regardless of how many tasks failed. -/
theorem exit_code_always_zero (d : List (List Nat × Bool))
    (fetch : String → FetchResult) (files : List String) :
    (mainModel d fetch files).2 = 0 := rfl

theorem runSched_foldl (task : Nat → String) (order : List Nat) :
    ∀ (st : Nat → Option String) (i : Nat),
      (order.foldl (writeSlot task) st) i =
        if i ∈ order then some (task i) else st i := by
  induction order with
  | nil => intro st i; simp
  | cons j rest ih =>
    intro st i
    rw [List.foldl_cons, ih]
    by_cases hm : i ∈ rest
    · simp [hm, List.mem_cons]
    · simp only [hm, if_false]
      unfold writeSlot
      by_cases hij : i = j
      · subst hij; simp [List.mem_cons]
      · simp [hij, List.mem_cons, hm]

/-- C1: after the per-identifier threads complete in ANY order covering every
input position, slot `i` of the result vector holds exactly the result
computed for the identifier at input position `i`; every slot below the input
length is populated, and the collection does not depend on the completion
order. -/
theorem run_slots_by_input_position (d : List (List Nat × Bool))
    (fetch : String → FetchResult) (files : List String) (order : List Nat)
    (i : Nat) (hi : i < files.length)
    (hcover : ∀ j, j < files.length → j ∈ order) :
    runSched (taskFor d fetch files) order i =
      some (getStats d (fetch (files.getD i "")) (files.getD i "")) := by
  unfold runSched
  rw [runSched_foldl, if_pos (hcover i hi)]
  rfl

theorem run_slots_by_input_position_witness :
    runSched (taskFor (loadDictionary (strBytes "the quick fox"))
        (fun f => FetchResult.success (strBytes ("\r\n" ++ f ++ " the")))
        ["a", "b", "c"]) [2, 0, 1] 1 =
      some "b: words=2, English words=1" := by
  have h := run_slots_by_input_position (loadDictionary (strBytes "the quick fox"))
    (fun f => FetchResult.success (strBytes ("\r\n" ++ f ++ " the")))
    ["a", "b", "c"] [2, 0, 1] 1 (by decide) (by decide)
  rw [h]
  decide

/-- Number of maximal runs of characters satisfying `q`, as a left-to-right
scan; `inRun` records whether the previous character satisfied `q`. -/
def countRunsAux (q : Nat → Bool) : List Nat → Bool → Nat
  | [], _ => 0
  | c :: cs, inRun => (if q c && !inRun then 1 else 0) + countRunsAux q cs (q c)

/-- Whether the last character pushed on the (reversed) accumulator
satisfies `q` (`false` for an empty accumulator). -/
def runState (q : Nat → Bool) : List Nat → Bool
  | [] => false
  | c :: _ => q c

theorem countRunsAux_append (q : Nat → Bool) (xs : List Nat) :
    ∀ (ys : List Nat) (s : Bool), countRunsAux q (xs ++ ys) s =
      countRunsAux q xs s + countRunsAux q ys (xs.foldl (fun _ c => q c) s) := by
  induction xs with
  | nil => intro ys s; simp [countRunsAux]
  | cons x xs ih =>
    intro ys s
    rw [List.cons_append]
    simp only [countRunsAux]
    rw [ih ys (q x), List.foldl_cons]
    omega

theorem foldl_runState_reverse (q : Nat → Bool) (acc : List Nat) :
    acc.reverse.foldl (fun _ c => q c) false = runState q acc := by
  cases acc with
  | nil => rfl
  | cons a t =>
    rw [List.reverse_cons, List.foldl_append]
    rfl

theorem splitAux_countRuns_sum (p q : Nat → Bool) (l : List Nat) :
    ∀ acc, ((splitAux p l acc).map (fun ch => countRunsAux q ch false)).sum =
      countRunsAux q acc.reverse false +
        countRunsAux (fun a => p a && q a) l (runState q acc) := by
  induction l with
  | nil =>
    intro acc
    unfold splitAux
    split
    · rename_i he
      have ha : acc = [] := by simpa [List.isEmpty_iff] using he
      subst ha
      simp [countRunsAux]
    · simp [countRunsAux]
  | cons c cs ih =>
    intro acc
    unfold splitAux
    by_cases hpc : p c = true
    · rw [if_pos hpc, ih (c :: acc)]
      rw [List.reverse_cons, countRunsAux_append, foldl_runState_reverse]
      simp only [countRunsAux, hpc, Bool.true_and, runState]
      omega
    · have hf : p c = false := by simpa using hpc
      rw [if_neg hpc]
      by_cases he : acc.isEmpty = true
      · rw [if_pos he]
        have ha : acc = [] := by simpa [List.isEmpty_iff] using he
        subst ha
        rw [ih []]
        simp [countRunsAux, runState, hf]
      · rw [if_neg he]
        simp only [List.map_cons, List.sum_cons]
        rw [ih []]
        simp only [countRunsAux, List.reverse_nil, runState, hf,
          Bool.false_and, Bool.false_eq_true, if_false]

theorem splitAux_length (q : Nat → Bool) (l : List Nat) :
    ∀ acc, (splitAux q l acc).length =
      (if acc.isEmpty then 0 else 1) + countRunsAux q l (!acc.isEmpty) := by
  induction l with
  | nil =>
    intro acc
    unfold splitAux
    split
    · rename_i he; simp [he, countRunsAux]
    · rename_i he
      have : acc.isEmpty = false := by simpa using he
      simp [this, countRunsAux]
  | cons c cs ih =>
    intro acc
    unfold splitAux
    by_cases hqc : q c = true
    · rw [if_pos hqc, ih (c :: acc)]
      simp only [countRunsAux, hqc, List.isEmpty_cons, Bool.true_and,
        Bool.not_false, if_false]
      cases hae : acc.isEmpty <;> simp [hae]
    · have hf : q c = false := by simpa using hqc
      rw [if_neg hqc]
      by_cases he : acc.isEmpty = true
      · rw [if_pos he, ih []]
        simp [countRunsAux, hf, he]
      · have he' : acc.isEmpty = false := by simpa using he
        rw [if_neg he]
        simp only [List.length_cons, ih [], countRunsAux, hf, he',
          Bool.false_and, Bool.false_eq_true, if_false]
        simp
        omega

theorem splitAux_map (p : Nat → Bool) (f : Nat → Nat) (l : List Nat) :
    ∀ acc, splitAux p (l.map f) (acc.map f) =
      (splitAux (fun a => p (f a)) l acc).map (List.map f) := by
  induction l with
  | nil =>
    intro acc
    unfold splitAux
    by_cases he : acc.isEmpty = true
    · have ha : acc = [] := by simpa [List.isEmpty_iff] using he
      subst ha
      simp
    · have he' : acc.isEmpty = false := by simpa using he
      have hm : (acc.map f).isEmpty = false := by
        cases acc with
        | nil => simp at he'
        | cons a t => simp
      simp [he', hm, List.map_reverse]
  | cons c cs ih =>
    intro acc
    simp only [List.map_cons]
    unfold splitAux
    by_cases hpc : p (f c) = true
    · rw [if_pos hpc, if_pos hpc]
      rw [show (f c :: acc.map f) = (c :: acc).map f from rfl, ih (c :: acc)]
    · rw [if_neg hpc, if_neg hpc]
      by_cases he : acc.isEmpty = true
      · have ha : acc = [] := by simpa [List.isEmpty_iff] using he
        subst ha
        simpa using ih []
      · have he' : acc.isEmpty = false := by simpa using he
        have hm : (acc.map f).isEmpty = false := by
          cases acc with
          | nil => simp at he'
          | cons a t => simp
        rw [if_neg (by simp [hm]), if_neg (by simp [he'])]
        rw [show ([] : List Nat) = ([] : List Nat).map f from rfl, ih []]
        simp [List.map_reverse]

theorem countRunsAux_congr (p q : Nat → Bool) (h : ∀ a, p a = q a)
    (l : List Nat) (s : Bool) : countRunsAux p l s = countRunsAux q l s := by
  rw [funext h]

/-- Spec-side definition (the claim's words): the number of maximal runs of
characters that are neither whitespace nor punctuation in the payload. -/
def maximalWordRuns (body : List Nat) : Nat := (splitWith wordChar body).length

theorem notSpace_and_wordChar (a : Nat) :
    (notSpace a && wordChar a) = wordChar a := by
  unfold wordChar notSpace
  cases isSpaceC a <;> simp

/-- C10: the total word count of the payload loop — whitespace-delimited
chunks, punctuation replaced by spaces, chunks re-split — equals the number
of maximal runs of characters that are neither whitespace nor punctuation;
in particular `"don't"` contributes two words. -/
theorem word_count_eq_maximal_runs :
    (∀ body, (processTokens body).length = maximalWordRuns body) ∧
    (processTokens (strBytes "don't")).length = 2 := by
  refine ⟨?_, by decide⟩
  intro body
  unfold processTokens maximalWordRuns
  rw [List.length_flatten, List.map_map]
  have perchunk : ∀ ch : List Nat,
      (splitWith notSpace (ch.map normChar)).length =
        countRunsAux wordChar ch false := by
    intro ch
    show (splitAux notSpace (ch.map normChar) (([] : List Nat).map normChar)).length = _
    rw [splitAux_map notSpace normChar ch [], List.length_map]
    rw [splitAux_length]
    rw [countRunsAux_congr _ wordChar (fun a => notSpace_normChar a)]
    simp
  have hcomp : (List.length ∘ fun ch => splitWith notSpace (ch.map normChar)) =
      fun ch : List Nat => countRunsAux wordChar ch false := funext perchunk
  rw [hcomp]
  rw [show splitWith notSpace body = splitAux notSpace body [] from rfl]
  rw [splitAux_countRuns_sum notSpace wordChar body []]
  rw [countRunsAux_congr _ wordChar (fun a => notSpace_and_wordChar a)]
  rw [show splitWith wordChar body = splitAux wordChar body [] from rfl,
    splitAux_length]
  simp [countRunsAux, runState]

example : tokenize "The Quick Brown Fox jumps." =
    ["the", "quick", "brown", "fox", "jumps"] := by decide

example : processFile (loadDictionary (strBytes "the quick fox"))
    (strBytes "HTTP/1.1 200 OK\r\nHead: x\r\n\r\nThe Quick Brown Fox jumps.")
    "a.txt" = "a.txt: words=5, English words=3" := by decide

example : processFile [] (strBytes "hello world") "f" =
    "f: words=0, English words=0" := by decide

example : (processTokens (strBytes "don't")).length = 2 := by decide

end Homework4
